import Mathlib

/-!
# The wetandforget.com document downloader (`main.go`)

A shallow embedding of the pure helpers of `main.go` (filename sanitising,
de-duplication, link extraction) and of `downloadPDF` over an explicit
filesystem state and a counting transport stub, followed by the properties
proved of them.

A Go string is modelled as the list of runes that Go's decoding yields for it
(`GoString`).  Every library routine used by the program on strings either
works rune by rune (`strings.ToLower`, `regexp`) or looks for ASCII bytes
only (`filepath.Base`, `filepath.Ext`, `strings.Trim`, `strings.ReplaceAll`
with the needle `_pdf`), so the rune view and the byte view agree.
File paths follow the unix build of `path/filepath` (separator `/`).
The Unicode case table behind `strings.ToLower` is a parameter (`ul`); ASCII
is lower-cased inline.  The loops of `strings.ReplaceAll` and `FindAllString`
carry a step bound; `removeLoop_fuel` and `findAllLoop_fuel` show that the
bound the program's functions pass is never reached.
-/

namespace WetAndForget

/-! ## Strings -/

/-- A Go string as its sequence of runes. -/
abbrev GoString := List Char

/-- The character class `[a-z0-9]`. -/
def isLowerAlnum (c : Char) : Bool :=
  (decide ('a' ≤ c) && decide (c ≤ 'z')) || (decide ('0' ≤ c) && decide (c ≤ '9'))

/-- One rune through `unicode.ToLower`: ASCII is handled inline (`A`..`Z` move
down by 32, everything else stays), every other rune is looked up in the
Unicode case table, a table of the Go standard library that is passed in
as `ul`. -/
def toLowerRune (ul : Char → Char) (c : Char) : Char :=
  if c.toNat < 128 then
    (if 'A' ≤ c ∧ c ≤ 'Z' then Char.ofNat (c.toNat + 32) else c)
  else ul c

/-- The library call `strings.ToLower`: every rune is mapped through `unicode.ToLower`. -/
def stringsToLower (ul : Char → Char) (s : GoString) : GoString :=
  s.map (toLowerRune ul)

/-- The library call `filepath.Base` (unix): the empty path gives `.`, trailing
separators are stripped, the text after the last separator is kept, and a
path of separators only gives `/`. -/
def filepathBase (path : GoString) : GoString :=
  if path = [] then ['.']
  else
    let stripped := path.rdropWhile (fun c => c == '/')
    let last := stripped.rtakeWhile (fun c => c != '/')
    if last = [] then ['/'] else last

/-- The library call `filepath.Ext` (unix): scanning backwards from the end and
stopping at a separator, the text from the last dot on; empty when the final
element has no dot. -/
def filepathExt (path : GoString) : GoString :=
  let seg := path.rtakeWhile (fun c => c != '/')
  if seg.contains '.' then '.' :: seg.rtakeWhile (fun c => c != '.') else []

/-- Replacement of every match of the regular expression `[^a-z0-9]` by `_`
(`reNonAlnum.ReplaceAllString(lower, "_")`): the expression matches exactly
one rune at a time, so each rune outside the class becomes one underscore. -/
def replaceNonAlnum (s : GoString) : GoString :=
  s.map (fun c => if isLowerAlnum c then c else '_')

/-- Replacement of every match of the regular expression `_+` by `_`: each
maximal run of underscores shrinks to one.  An underscore that is followed
by another underscore is dropped, the last one of a run is kept. -/
def collapseUnderscores : GoString → GoString
  | [] => []
  | c :: rest =>
    if c = '_' ∧ rest.head? = some '_' then collapseUnderscores rest
    else c :: collapseUnderscores rest

/-- The library call `strings.Trim(s, cutset)`: leading and trailing runes that belong
to the cutset are removed. -/
def stringsTrim (s cutset : GoString) : GoString :=
  (s.dropWhile (fun c => cutset.contains c)).rdropWhile (fun c => cutset.contains c)

/-- The scanning loop of `strings.ReplaceAll(s, old, "")` for a non-empty `old`:
at each position, an occurrence of `old` is skipped whole, any other rune is
copied.  The first argument bounds the number of steps; `s.length` steps
always suffice since every step consumes at least one rune. -/
def removeLoop (old : GoString) : Nat → GoString → GoString
  | 0, s => s
  | _ + 1, [] => []
  | n + 1, c :: rest =>
    if old.isPrefixOf (c :: rest) then removeLoop old n ((c :: rest).drop old.length)
    else c :: removeLoop old n rest

/-- Removes all instances of a substring (`strings.ReplaceAll(input, toRemove, "")`);
an empty `toRemove` equals the replacement, in which case the library returns
the input unchanged. -/
def removeSubstring (input toRemove : GoString) : GoString :=
  if toRemove = [] then input else removeLoop toRemove input.length input

/-- Extracts the filename from a full path (`filepath.Base`). -/
def getFilename (path : GoString) : GoString := filepathBase path

/-- Gets the file extension of a path (`filepath.Ext`). -/
def getFileExtension (path : GoString) : GoString := filepathExt path

/-- The substrings `urlToFilename` removes from a name. -/
def invalidSubstrings : List GoString := ["_pdf".toList]

/-- Converts a raw URL into a sanitised PDF filename. -/
def urlToFilename (ul : Char → Char) (rawURL : GoString) : GoString :=
  let lower := stringsToLower ul rawURL
  let lower := getFilename lower
  let safe := replaceNonAlnum lower
  let safe := collapseUnderscores safe
  let safe := stringsTrim safe "_".toList
  let safe := invalidSubstrings.foldl removeSubstring safe
  if getFileExtension safe ≠ ".pdf".toList then safe ++ ".pdf".toList else safe

/-- The part of `urlToFilename` before the extension is enforced: the name after
lower-casing, `getFilename`, the two regular-expression replacements and the trim. -/
def sanitizedName (ul : Char → Char) (rawURL : GoString) : GoString :=
  stringsTrim (collapseUnderscores
    (replaceNonAlnum (getFilename (stringsToLower ul rawURL)))) "_".toList

/-- The value of `safe` in `urlToFilename` after the removal loop, just before the
extension check. -/
def urlStem (ul : Char → Char) (rawURL : GoString) : GoString :=
  invalidSubstrings.foldl removeSubstring (sanitizedName ul rawURL)

/-- The text of a URL after its last `/` (the whole text when there is none). -/
def lastSegment (u : GoString) : GoString := u.rtakeWhile (fun c => c != '/')

/-- A URL without its trailing `/` runes. -/
def stripTrailingSlashes (u : GoString) : GoString := u.rdropWhile (fun c => c == '/')

/-- The text made of `k` copies of `_pdf`. -/
def noiseRun (k : Nat) : GoString := (List.replicate k "_pdf".toList).flatten

/-- The text `_p`, then `i` copies of `_pdf`, then `d`, then `j` copies of `_pdf`,
then `f`: what one pass of the removal turns into `_pdf`. -/
def splicedPdf (i j : Nat) : GoString :=
  '_' :: 'p' :: (noiseRun i ++ ('d' :: (noiseRun j ++ ['f'])))

/-- A rune of the class `[a-z0-9_]`. -/
def SafeChar (c : Char) : Prop :=
  ('a' ≤ c ∧ c ≤ 'z') ∨ ('0' ≤ c ∧ c ≤ '9') ∨ c = '_'

/-- No two neighbouring runes are both underscores. -/
def NoDouble (s : GoString) : Prop :=
  List.Chain' (fun a b => ¬ (a = '_' ∧ b = '_')) s

/-! ## De-duplication -/

/-- The loop of `removeDuplicatesFromSlice`.  `check` is the map of seen values
(a missing key reads as `false`), `newReturnSlice` the slice built so far. -/
def dedupLoop : List GoString → (GoString → Bool) → List GoString → List GoString
  | [], _, newReturnSlice => newReturnSlice
  | content :: rest, check, newReturnSlice =>
    if !check content then
      dedupLoop rest (fun k => if k = content then true else check k)
        (newReturnSlice ++ [content])
    else dedupLoop rest check newReturnSlice

/-- Removes duplicate strings from a slice. -/
def removeDuplicatesFromSlice (slice : List GoString) : List GoString :=
  dedupLoop slice (fun _ => false) []

/-- De-duplication as the specification words it: the elements of `L` whose value
does not occur in `L` at an earlier index, in their original order. -/
def keepFirstOccurrences (L : List GoString) : List GoString :=
  (L.enum.filter (fun p => !(L.take p.1).contains p.2)).map Prod.snd

/-! ## Link extraction -/

/-- The class `\s` of Go regular expressions: tab, line feed, form feed,
carriage return and space. -/
def isRegexSpace (c : Char) : Bool :=
  c == '\t' || c == '\n' || c == Char.ofNat 12 || c == '\r' || c == ' '

/-- The double quote. -/
def dquote : Char := Char.ofNat 34

/-- The single quote. -/
def squote : Char := Char.ofNat 39

/-- White space in the sense of Unicode (the property `White_Space`, which is what
`unicode.IsSpace` tests): U+0009 to U+000D, space, U+0085, U+00A0, U+1680,
U+2000 to U+200A, U+2028, U+2029, U+202F, U+205F and U+3000. -/
def isWhiteSpace (c : Char) : Bool :=
  let n := c.toNat
  (decide (9 ≤ n) && decide (n ≤ 13)) || n == 32 || n == 133 || n == 160 || n == 5760 ||
    (decide (8192 ≤ n) && decide (n ≤ 8202)) || n == 8232 || n == 8233 || n == 8239 ||
    n == 8287 || n == 12288

/-- The class `[^\s"']` of the expression in `extractPDFUrls`. -/
def isLinkChar (c : Char) : Bool :=
  !(isRegexSpace c || c == dquote || c == squote)

/-- The literal `\.pdf` at the head of the text. -/
def matchLiteral (s : GoString) : Option GoString :=
  if ".pdf".toList.isPrefixOf s then some ".pdf".toList else none

/-- The rest of a match once the first rune of the class has been consumed: the
greedy `+` first tries to consume one more rune of the class and to finish
from there, and only when that fails tries the literal `\.pdf` here. -/
def matchRest : GoString → Option GoString
  | [] => none
  | c :: rest =>
    if isLinkChar c then
      match matchRest rest with
      | some m => some (c :: m)
      | none => matchLiteral (c :: rest)
    else matchLiteral (c :: rest)

/-- The match of `[^\s"']+\.pdf` that starts at the head of the text, as the
leftmost-first (backtracking) semantics of Go's `regexp` selects it. -/
def matchHere : GoString → Option GoString
  | [] => none
  | c :: rest =>
    if isLinkChar c then
      match matchRest rest with
      | some m => some (c :: m)
      | none => none
    else none

/-- The loop of `FindAllString(input, -1)`: the leftmost match is taken, the search
resumes right after it; where no match starts, the search moves one rune on.
The first argument bounds the number of steps. -/
def findAllLoop : Nat → GoString → List GoString
  | 0, _ => []
  | _ + 1, [] => []
  | n + 1, c :: rest =>
    match matchHere (c :: rest) with
    | some m => m :: findAllLoop n ((c :: rest).drop m.length)
    | none => findAllLoop n rest

/-- Extracts all `.pdf` links of a text, in order, repeats included. -/
def extractPDFUrls (input : GoString) : List GoString :=
  findAllLoop input.length input

/-! ## Paths, filesystem and transport -/

/-- One step of `filepath.Clean` on a path element: empty elements and `.` are
dropped, `..` removes the previous real element (at the root it is dropped,
in a relative path with nothing to remove it is kept), any other element
is appended. -/
def cleanStep (rooted : Bool) (out : List GoString) (elem : GoString) : List GoString :=
  if elem = [] ∨ elem = ['.'] then out
  else if elem = ['.', '.'] then
    match out.getLast? with
    | none => if rooted then out else out ++ [elem]
    | some top =>
      if top = ['.', '.'] then (if rooted then out else out ++ [elem]) else out.dropLast
  else out ++ [elem]

/-- The library call `filepath.Clean` (unix). -/
def filepathClean (path : GoString) : GoString :=
  if path = [] then ['.']
  else
    let rooted : Bool := path.head? == some '/'
    let out := (path.splitOn '/').foldl (cleanStep rooted) []
    if rooted then '/' :: ['/'].intercalate out
    else if out = [] then ['.'] else ['/'].intercalate out

/-- The library call `filepath.Join` on two elements: the elements from the first
non-empty one on are joined by `/` and cleaned. -/
def filepathJoin (dir name : GoString) : GoString :=
  if dir ≠ [] then filepathClean (dir ++ '/' :: name)
  else if name ≠ [] then filepathClean name
  else []

/-- The library call `strings.Contains`. -/
def stringsContains (s substr : GoString) : Bool :=
  s.tails.any (fun t => substr.isPrefixOf t)

/-- What `os.Stat` finds at a path. -/
inductive Node where
  | file (content : List Nat)
  | dir
  deriving DecidableEq

/-- The predicate `IsDir` of a file info. -/
def Node.isDir : Node → Bool
  | Node.file _ => false
  | Node.dir => true

/-- The filesystem state: what each path holds; `none` where `os.Stat` fails. -/
abbrev FileSystem := GoString → Option Node

/-- Checks if a file exists at the path (and is not a directory). -/
def fileExists (fs : FileSystem) (filename : GoString) : Bool :=
  match fs filename with
  | none => false
  | some info => !info.isDir

/-- The filesystem with a file of the given content at `path`. -/
def writeFile (fs : FileSystem) (path : GoString) (content : List Nat) : FileSystem :=
  fun p => if p = path then some (Node.file content) else fs p

/-- What the transport stub answers to a GET that did not fail: the status code,
the value of `Header.Get("Content-Type")`, the bytes that `io.Copy` gets out of
the body, and whether that copy ends in an error. -/
structure Response where
  statusCode : Nat
  contentType : GoString
  body : List Nat
  readErr : Bool

/-- The transport stub: the response to a GET of a URL, `none` on a transport error. -/
abbrev Transport := GoString → Option Response

/-- The state `downloadPDF` acts on: the filesystem and the number of GET requests
the transport has served. -/
structure World where
  fs : FileSystem
  requests : Nat

/-- The failures the filesystem may inject at the final step: `os.Create` failing,
and `WriteTo` failing after some bytes. -/
structure Faults where
  createErr : Bool
  writeLimit : Option Nat

/-- The library call `os.Create`: fails on an injected fault or on a directory, otherwise
leaves an empty file at the path. -/
def osCreate (faults : Faults) (fs : FileSystem) (path : GoString) : Option FileSystem :=
  if faults.createErr then none
  else
    match fs path with
    | some Node.dir => none
    | _ => some (writeFile fs path [])

/-- Downloads a PDF from the URL into the directory.  Returns the boolean result
and the state after the call. -/
def downloadPDF (ul : Char → Char) (transport : Transport) (faults : Faults)
    (finalURL outputDir : GoString) (w : World) : Bool × World :=
  let filename := stringsToLower ul (urlToFilename ul finalURL)
  let filePath := filepathJoin outputDir filename
  if fileExists w.fs filePath then (false, w)
  else
    let w1 : World := { fs := w.fs, requests := w.requests + 1 }
    match transport finalURL with
    | none => (false, w1)
    | some resp =>
      if resp.statusCode ≠ 200 then (false, w1)
      else if !stringsContains resp.contentType "binary/octet-stream".toList
          && !stringsContains resp.contentType "application/pdf".toList then (false, w1)
      else if resp.readErr then (false, w1)
      else if resp.body.length = 0 then (false, w1)
      else
        match osCreate faults w1.fs filePath with
        | none => (false, w1)
        | some fs2 =>
          match faults.writeLimit with
          | some k =>
            if k < resp.body.length then
              (false, { fs := writeFile fs2 filePath (resp.body.take k), requests := w1.requests })
            else (true, { fs := writeFile fs2 filePath resp.body, requests := w1.requests })
          | none => (true, { fs := writeFile fs2 filePath resp.body, requests := w1.requests })

/-! ## Concrete stubs -/

/-- The filesystem in which every `os.Stat` fails. -/
def emptyFS : FileSystem := fun _ => none

/-- The filesystem that holds the directory `PDFs` and nothing else. -/
def pdfsDirFS : FileSystem := fun p => if p = "PDFs".toList then some Node.dir else none

/-- A 200 response of type `application/pdf` carrying the four bytes `%PDF`. -/
def pdfResponse : Response :=
  { statusCode := 200, contentType := "application/pdf".toList, body := [37, 80, 68, 70],
    readErr := false }

/-- A 200 response of type `text/html` with a non-empty body. -/
def htmlResponse : Response :=
  { statusCode := 200, contentType := "text/html".toList, body := [60, 104, 62],
    readErr := false }

/-- A 404 response. -/
def notFoundResponse : Response :=
  { statusCode := 404, contentType := "text/html".toList, body := [], readErr := false }

/-- The transport stub that answers every GET with the same response. -/
def stubTransport (r : Response) : Transport := fun _ => some r

/-- No injected filesystem failure. -/
def noFaults : Faults := { createErr := false, writeLimit := none }

/-! ## Auxiliary predicates of the proofs -/

/-- The map of seen values agrees with the slice built so far. -/
def SeenAgrees (check : GoString → Bool) (out : List GoString) : Prop :=
  ∀ x, check x = true ↔ x ∈ out

/-- The text ends here or goes on with a rune outside the class `[^\s"']`. -/
def StopsHere (r : GoString) : Prop :=
  r = [] ∨ ∃ d r1, r = d :: r1 ∧ isLinkChar d = false

/-- A link as C7 words it: a non-empty run of runes of the class `[^\s"']` followed
by `.pdf`. -/
def IsLink (l : GoString) : Prop :=
  ∃ x : GoString, x ≠ [] ∧ (∀ c ∈ x, isLinkChar c = true) ∧ l = x ++ ".pdf".toList

/-- The page text of the extraction scenario: two quoted occurrences of `doc_1.pdf`. -/
def scenarioText : GoString :=
  "<a href=\x22doc_1.pdf\x22>x</a> \x22doc_1.pdf\x22".toList

/-- The path `downloadPDF` writes to. -/
def targetPath (ul : Char → Char) (finalURL outputDir : GoString) : GoString :=
  filepathJoin outputDir (urlToFilename ul finalURL)

/-! ## The sanitiser -/

theorem safeChar_of_isLowerAlnum {c : Char} (h : isLowerAlnum c = true) : SafeChar c := by
  unfold isLowerAlnum at h
  simp only [Bool.or_eq_true, Bool.and_eq_true, decide_eq_true_eq] at h
  rcases h with h | h
  · exact Or.inl h
  · exact Or.inr (Or.inl h)

theorem replaceNonAlnum_safe (s : GoString) : ∀ c ∈ replaceNonAlnum s, SafeChar c := by
  intro c hc
  unfold replaceNonAlnum at hc
  obtain ⟨d, _, rfl⟩ := List.mem_map.1 hc
  by_cases hd : isLowerAlnum d = true
  · simpa [hd] using safeChar_of_isLowerAlnum hd
  · simp only [hd]
    exact Or.inr (Or.inr rfl)

theorem collapseUnderscores_sublist (s : GoString) : List.Sublist (collapseUnderscores s) s := by
  induction s with
  | nil => exact List.Sublist.refl _
  | cons c rest ih =>
    unfold collapseUnderscores
    split
    · exact ih.trans (List.sublist_cons_self c rest)
    · exact ih.cons₂ c

theorem collapseUnderscores_head (s : GoString) :
    (collapseUnderscores s).head? = s.head? := by
  induction s with
  | nil => rfl
  | cons c rest ih =>
    unfold collapseUnderscores
    split
    · rename_i h
      rw [ih, h.2, h.1]; rfl
    · rfl

theorem collapseUnderscores_noDouble (s : GoString) : NoDouble (collapseUnderscores s) := by
  induction s with
  | nil => exact List.chain'_nil
  | cons c rest ih =>
    unfold collapseUnderscores
    split
    · exact ih
    · rename_i h
      refine List.Chain'.cons' ih ?_
      intro y hy hcy
      rw [collapseUnderscores_head] at hy
      have hy2 : rest.head? = some y := hy
      exact h ⟨hcy.1, by rw [hy2, hcy.2]⟩

theorem stringsTrim_within (s cutset : GoString) : stringsTrim s cutset <:+: s :=
  (List.rdropWhile_prefix _ _).isInfix.trans (List.dropWhile_suffix _).isInfix

theorem stringsTrim_head (s : GoString) : (stringsTrim s ['_']).head? ≠ some '_' := by
  unfold stringsTrim
  intro h
  set t := s.dropWhile (fun c => ['_'].contains c) with ht
  have hpre : List.rdropWhile (fun c => ['_'].contains c) t <+: t := List.rdropWhile_prefix _ _
  obtain ⟨r, hr⟩ := hpre
  cases hq : List.rdropWhile (fun c => ['_'].contains c) t with
  | nil => rw [hq] at h; cases h
  | cons a q =>
    rw [hq] at h hr
    have ha : a = '_' := by simpa using h
    have h1 : t.head? = some a := by rw [← hr]; rfl
    have h2 := List.head?_dropWhile_not (fun c => ['_'].contains c) s
    rw [← ht, h1] at h2
    simp [ha] at h2

theorem stringsTrim_last (s : GoString) : (stringsTrim s ['_']).getLast? ≠ some '_' := by
  unfold stringsTrim
  intro h
  set t := s.dropWhile (fun c => ['_'].contains c)
  by_cases hne : List.rdropWhile (fun c => ['_'].contains c) t = []
  · rw [hne] at h; cases h
  · have h1 := List.rdropWhile_last_not (fun c => ['_'].contains c) t hne
    rw [List.getLast?_eq_getLast _ hne] at h
    have h2 : (List.rdropWhile (fun c => ['_'].contains c) t).getLast hne = '_' := by
      simpa using h
    rw [h2] at h1
    simp at h1

theorem removeLoop_sublist (old : GoString) (n : Nat) (s : GoString) :
    List.Sublist (removeLoop old n s) s := by
  induction n generalizing s with
  | zero => unfold removeLoop; exact List.Sublist.refl _
  | succ n ih =>
    cases s with
    | nil => unfold removeLoop; exact List.Sublist.refl _
    | cons c rest =>
      unfold removeLoop
      split
      · exact (ih _).trans (List.drop_sublist _ _)
      · exact (ih rest).cons₂ c

theorem removeLoop_fuel_succ (old : GoString) (hold : old ≠ []) (n : Nat) (s : GoString)
    (h : s.length ≤ n) : removeLoop old (n + 1) s = removeLoop old n s := by
  induction n generalizing s with
  | zero =>
    have hs : s = [] := List.length_eq_zero.1 (Nat.le_zero.1 h)
    subst hs
    rfl
  | succ n ih =>
    cases s with
    | nil => rfl
    | cons c rest =>
      have hpos : 1 ≤ old.length := by
        cases old with
        | nil => exact absurd rfl hold
        | cons a o => simp
      have hlen : rest.length ≤ n := by simpa using h
      rw [removeLoop, removeLoop]
      split
      · refine ih _ ?_
        rw [List.length_drop]
        have : (c :: rest).length = rest.length + 1 := rfl
        omega
      · rw [ih rest hlen]

/-- The step bound of `removeSubstring` is never reached: any larger bound gives the
same result. -/
theorem removeLoop_fuel (old : GoString) (hold : old ≠ []) (s : GoString) (n : Nat)
    (h : s.length ≤ n) : removeLoop old n s = removeLoop old s.length s := by
  induction n with
  | zero =>
    have hs : s = [] := List.length_eq_zero.1 (Nat.le_zero.1 h)
    subst hs
    rfl
  | succ n ih =>
    by_cases hn : s.length ≤ n
    · rw [removeLoop_fuel_succ old hold n s hn, ih hn]
    · have : s.length = n + 1 := by omega
      rw [this]

theorem removeLoop_head (o : GoString) (n : Nat) (s : GoString)
    (h : (removeLoop ('_' :: o) n s).head? = some '_') : s.head? = some '_' := by
  cases n with
  | zero => unfold removeLoop at h; exact h
  | succ n =>
    cases s with
    | nil => unfold removeLoop at h; exact h
    | cons c rest =>
      unfold removeLoop at h
      split at h
      · rename_i hp
        have hp2 := List.isPrefixOf_iff_prefix.1 hp
        obtain ⟨r, hr⟩ := hp2
        have : c = '_' := by
          have := congrArg List.head? hr
          simpa using this.symm
        rw [this]; rfl
      · exact h

theorem removeLoop_nil (o : GoString) (n : Nat) (s : GoString)
    (h : removeLoop ('_' :: o) n s = []) : s = [] ∨ s.head? = some '_' := by
  cases n with
  | zero => unfold removeLoop at h; exact Or.inl h
  | succ n =>
    cases s with
    | nil => exact Or.inl rfl
    | cons c rest =>
      unfold removeLoop at h
      split at h
      · rename_i hp
        obtain ⟨r, hr⟩ := List.isPrefixOf_iff_prefix.1 hp
        have : c = '_' := by
          have := congrArg List.head? hr
          simpa using this.symm
        right; rw [this]; rfl
      · cases h

theorem removeLoop_noDouble (o : GoString) (n : Nat) (s : GoString) (hs : NoDouble s) :
    NoDouble (removeLoop ('_' :: o) n s) := by
  induction n generalizing s with
  | zero => unfold removeLoop; exact hs
  | succ n ih =>
    cases s with
    | nil => unfold removeLoop; exact hs
    | cons c rest =>
      unfold removeLoop
      split
      · exact ih _ (List.Chain'.suffix hs (List.drop_suffix _ _))
      · refine List.Chain'.cons' (ih rest (List.Chain'.tail hs)) ?_
        intro y hy hcy
        have hy2 : (removeLoop ('_' :: o) n rest).head? = some y := hy
        rw [hcy.2] at hy2
        have h3 := removeLoop_head o n rest hy2
        exact (List.chain'_cons'.1 hs).1 '_' h3 ⟨hcy.1, rfl⟩

theorem removeLoop_last (o : GoString) (n : Nat) (s : GoString) (hs : NoDouble s)
    (h : (removeLoop ('_' :: o) n s).getLast? = some '_') : s.getLast? = some '_' := by
  induction n generalizing s with
  | zero => unfold removeLoop at h; exact h
  | succ n ih =>
    cases s with
    | nil => unfold removeLoop at h; exact h
    | cons c rest =>
      unfold removeLoop at h
      split at h
      · have h1 := ih _ (List.Chain'.suffix hs (List.drop_suffix _ _)) h
        have hsuf : ((c :: rest).drop ('_' :: o).length) <:+ (c :: rest) := List.drop_suffix _ _
        obtain ⟨p, hp⟩ := hsuf
        have hne : (c :: rest).drop ('_' :: o).length ≠ [] := by
          intro h0; rw [h0] at h1; cases h1
        rw [← hp, List.getLast?_append_of_ne_nil _ hne]
        exact h1
      · cases hr : removeLoop ('_' :: o) n rest with
        | nil =>
          rw [hr] at h
          have hc : c = '_' := by simpa using h
          rcases removeLoop_nil o n rest hr with h0 | h0
          · rw [h0, hc]; rfl
          · exact absurd ⟨hc, rfl⟩ ((List.chain'_cons'.1 hs).1 '_' h0)
        | cons a q =>
          rw [hr] at h
          have h1 : (removeLoop ('_' :: o) n rest).getLast? = some '_' := by
            rw [hr]; simpa [List.getLast?_cons_cons] using h
          have h2 := ih rest (List.Chain'.tail hs) h1
          cases rest with
          | nil => cases h2
          | cons b r => simpa [List.getLast?_cons_cons] using h2

theorem filepathExt_of_no_dot (s : GoString) (h : '.' ∉ s) : filepathExt s = [] := by
  unfold filepathExt
  have hseg : '.' ∉ s.rtakeWhile (fun c => c != '/') :=
    fun hm => h ((List.rtakeWhile_suffix _ _).subset hm)
  simp [hseg]

theorem safeChar_ne_dot {c : Char} (h : SafeChar c) : c ≠ '.' := by
  rintro rfl
  rcases h with h | h | h
  · exact absurd h.1 (by decide)
  · exact absurd h.1 (by decide)
  · exact absurd h (by decide)

theorem removeSubstring_pdf (t : GoString) :
    removeSubstring t "_pdf".toList = removeLoop ('_' :: "pdf".toList) t.length t := by
  unfold removeSubstring
  rw [if_neg (by decide)]
  rfl

theorem urlStem_eq (ul : Char → Char) (u : GoString) :
    urlStem ul u = removeLoop ('_' :: "pdf".toList)
      (sanitizedName ul u).length (sanitizedName ul u) := by
  unfold urlStem invalidSubstrings
  simp only [List.foldl_cons, List.foldl_nil]
  exact removeSubstring_pdf _

theorem sanitizedName_safe (ul : Char → Char) (u : GoString) :
    ∀ c ∈ sanitizedName ul u, SafeChar c := by
  intro c hc
  have h2 := (stringsTrim_within _ _).subset hc
  have h3 := (collapseUnderscores_sublist _).subset h2
  exact replaceNonAlnum_safe _ c h3

theorem sanitizedName_noDouble (ul : Char → Char) (u : GoString) :
    NoDouble (sanitizedName ul u) :=
  List.Chain'.infix (collapseUnderscores_noDouble _) (stringsTrim_within _ _)

theorem urlStem_safe (ul : Char → Char) (u : GoString) : ∀ c ∈ urlStem ul u, SafeChar c := by
  intro c hc
  rw [urlStem_eq] at hc
  exact sanitizedName_safe ul u c ((removeLoop_sublist _ _ _).subset hc)

theorem urlToFilename_eq (ul : Char → Char) (u : GoString) :
    urlToFilename ul u = urlStem ul u ++ ".pdf".toList := by
  have hdot : '.' ∉ urlStem ul u := fun hm => safeChar_ne_dot (urlStem_safe ul u _ hm) rfl
  have hext := filepathExt_of_no_dot _ hdot
  show (if getFileExtension (urlStem ul u) ≠ ".pdf".toList then urlStem ul u ++ ".pdf".toList
    else urlStem ul u) = _
  unfold getFileExtension
  rw [hext, if_pos (by decide)]

theorem urlStem_noDouble (ul : Char → Char) (u : GoString) : NoDouble (urlStem ul u) := by
  rw [urlStem_eq]
  exact removeLoop_noDouble _ _ _ (sanitizedName_noDouble ul u)

theorem urlStem_head (ul : Char → Char) (u : GoString) : (urlStem ul u).head? ≠ some '_' := by
  rw [urlStem_eq]
  exact fun h => stringsTrim_head _ (removeLoop_head _ _ _ h)

theorem urlStem_last (ul : Char → Char) (u : GoString) : (urlStem ul u).getLast? ≠ some '_' := by
  rw [urlStem_eq]
  exact fun h => stringsTrim_last _ (removeLoop_last _ _ _ (sanitizedName_noDouble ul u) h)

theorem noDouble_no_pair {s : GoString} (h : NoDouble s) : ¬ (['_', '_'] <:+: s) := by
  intro hi
  have := List.Chain'.infix h hi
  simp [List.chain'_cons'] at this

theorem stringsToLower_ascii (ul : Char → Char) (s : GoString)
    (h : s.all (fun c => decide (c.toNat < 128)) = true) :
    stringsToLower ul s = stringsToLower id s := by
  unfold stringsToLower
  apply List.map_congr_left
  intro c hc
  have := List.all_eq_true.1 h c hc
  simp only [decide_eq_true_eq] at this
  simp [toLowerRune, this]

theorem urlToFilename_ascii (ul : Char → Char) (u : GoString)
    (h : u.all (fun c => decide (c.toNat < 128)) = true) :
    urlToFilename ul u = urlToFilename id u := by
  unfold urlToFilename
  rw [stringsToLower_ascii ul u h]

/-- C1: for every URL, `urlToFilename` gives a non-empty string `stem ++ ".pdf"` whose
stem has only runes of `[a-z0-9_]`, neither starts nor ends with an underscore
and has no two adjacent underscores; on
`https://example.com/files/Manual-Guide_PDF.pdf` it gives `manual_guide.pdf`. -/
theorem urlToFilename_wellformed (ul : Char → Char) (u : GoString) :
    urlToFilename ul u ≠ [] ∧
    (∃ stem : GoString, urlToFilename ul u = stem ++ ".pdf".toList ∧
      (∀ c ∈ stem, ('a' ≤ c ∧ c ≤ 'z') ∨ ('0' ≤ c ∧ c ≤ '9') ∨ c = '_') ∧
      stem.head? ≠ some '_' ∧ stem.getLast? ≠ some '_' ∧ ¬ ("__".toList <:+: stem)) ∧
    urlToFilename ul "https://example.com/files/Manual-Guide_PDF.pdf".toList
      = "manual_guide.pdf".toList := by
  refine ⟨?_, ⟨urlStem ul u, urlToFilename_eq ul u, urlStem_safe ul u, urlStem_head ul u,
    urlStem_last ul u, noDouble_no_pair (urlStem_noDouble ul u)⟩, ?_⟩
  · rw [urlToFilename_eq]
    exact List.append_ne_nil_of_right_ne_nil _ (by decide)
  · rw [urlToFilename_ascii ul _ (by decide)]
    decide

/-- The sanitiser at the empty URL: the bare extension, whatever the case table. -/
theorem urlToFilename_wellformed_witness :
    urlToFilename id [] = ".pdf".toList ∧ urlToFilename id [] ≠ [] :=
  ⟨by decide, (urlToFilename_wellformed id []).1⟩

theorem toLowerRune_slash (ul : Char → Char) (hul : ∀ c : Char, 128 ≤ c.toNat → ul c ≠ '/')
    (c : Char) : (toLowerRune ul c == '/') = (c == '/') := by
  unfold toLowerRune
  by_cases h : c.toNat < 128
  · rw [if_pos h]
    by_cases hu : 'A' ≤ c ∧ c ≤ 'Z'
    · rw [if_pos hu]
      have h1 : 65 ≤ c.toNat := hu.1
      have h2 : c.toNat ≤ 90 := hu.2
      have hc : c ≠ '/' := by
        rintro rfl
        exact absurd h1 (by decide)
      have hk : ∀ n : Nat, 65 ≤ n → n ≤ 90 → Char.ofNat (n + 32) ≠ '/' := by
        intro n hn1 hn2
        interval_cases n <;> decide
      simp [hc, hk c.toNat h1 h2]
    · rw [if_neg hu]
  · rw [if_neg h]
    have h1 : ul c ≠ '/' := hul c (Nat.le_of_not_lt h)
    have h2 : c ≠ '/' := by
      rintro rfl
      exact h (by decide)
    simp [h1, h2]

theorem rdropWhile_map {α β : Type} (f : α → β) (p : β → Bool) (l : List α) :
    (l.map f).rdropWhile p = (l.rdropWhile (p ∘ f)).map f := by
  unfold List.rdropWhile
  rw [← List.map_reverse, List.dropWhile_map, List.map_reverse]

theorem rtakeWhile_map {α β : Type} (f : α → β) (p : β → Bool) (l : List α) :
    (l.map f).rtakeWhile p = (l.rtakeWhile (p ∘ f)).map f := by
  unfold List.rtakeWhile
  rw [← List.map_reverse, List.takeWhile_map, List.map_reverse]

theorem stringsToLower_lastSegment (ul : Char → Char)
    (hul : ∀ c : Char, 128 ≤ c.toNat → ul c ≠ '/') (u : GoString) :
    stringsToLower ul (lastSegment (stripTrailingSlashes u))
      = lastSegment (stripTrailingSlashes (stringsToLower ul u)) := by
  unfold lastSegment stripTrailingSlashes stringsToLower
  rw [rdropWhile_map, rtakeWhile_map]
  have e1 : ((fun c : Char => c == '/') ∘ toLowerRune ul) = (fun c : Char => c == '/') := by
    funext c
    exact toLowerRune_slash ul hul c
  have e2 : ((fun c : Char => c != '/') ∘ toLowerRune ul) = (fun c : Char => c != '/') := by
    funext c
    show (toLowerRune ul c != '/') = (c != '/')
    unfold bne
    rw [toLowerRune_slash ul hul c]
  rw [e1, e2]

theorem filepathBase_lastSegment (l : GoString) :
    replaceNonAlnum (filepathBase l)
      = replaceNonAlnum (filepathBase (lastSegment (stripTrailingSlashes l))) := by
  by_cases hl : l = []
  · subst hl
    rfl
  · set seg := lastSegment (stripTrailingSlashes l) with hseg
    have hL : filepathBase l = if seg = [] then ['/'] else seg := by
      unfold filepathBase
      rw [if_neg hl]
      rfl
    by_cases hs : seg = []
    · rw [hL, hs]
      rfl
    · have hall : ∀ x ∈ seg, (fun c : Char => c != '/') x = true := by
        intro x hx
        exact @List.mem_rtakeWhile_imp _ (fun c : Char => c != '/') _ _ hx
      have h1 : seg.rdropWhile (fun c => c == '/') = seg := by
        rw [List.rdropWhile_eq_self_iff]
        intro hne
        have := hall _ (List.getLast_mem hne)
        simpa using this
      have h2 : seg.rtakeWhile (fun c => c != '/') = seg :=
        List.rtakeWhile_eq_self_iff.2 hall
      have hR : filepathBase seg = seg := by
        unfold filepathBase
        rw [if_neg hs]
        simp only [h1, h2, if_neg hs]
      rw [hL, if_neg hs, hR]

theorem stripTrailingSlashes_id (u : GoString) (h : u.getLast? ≠ some '/') :
    stripTrailingSlashes u = u := by
  unfold stripTrailingSlashes
  rw [List.rdropWhile_eq_self_iff]
  intro hne
  rw [List.getLast?_eq_getLast _ hne] at h
  intro hp
  apply h
  simpa using hp

/-- C8 (as amended): `urlToFilename` uses only the final path segment of the URL
once the trailing `/` runes of the URL are stripped; so for a URL that does not
end with `/` it is `urlToFilename` of the text after the last `/`.  The case
table is assumed not to lower-case any rune outside ASCII to `/`. -/
theorem urlToFilename_lastSegment (ul : Char → Char)
    (hul : ∀ c : Char, 128 ≤ c.toNat → ul c ≠ '/') (u : GoString) :
    urlToFilename ul u = urlToFilename ul (lastSegment (stripTrailingSlashes u)) ∧
    (u.getLast? ≠ some '/' → urlToFilename ul u = urlToFilename ul (lastSegment u)) := by
  have key : urlToFilename ul u = urlToFilename ul (lastSegment (stripTrailingSlashes u)) := by
    unfold urlToFilename getFilename
    dsimp only
    rw [stringsToLower_lastSegment ul hul u, ← filepathBase_lastSegment]
  refine ⟨key, fun h => ?_⟩
  rw [key, stripTrailingSlashes_id u h]

/-- The amended C8 at `https://example.com/files/a.pdf` and at `docs/`. -/
theorem urlToFilename_lastSegment_witness :
    (urlToFilename id "https://example.com/files/a.pdf".toList
        = urlToFilename id "a.pdf".toList) ∧
    (urlToFilename id "docs/".toList = urlToFilename id "docs".toList) :=
  ⟨by
      have h := (urlToFilename_lastSegment id (fun c hc => by
        intro h0
        have : c = '/' := h0
        rw [this] at hc
        exact absurd hc (by decide)) "https://example.com/files/a.pdf".toList).2 (by decide)
      exact h.trans (by decide),
    by decide⟩

/-- C8 as stated fails on a URL that ends with `/`: the text after the last `/` of
`abc/` is empty and sanitises to `.pdf`, while `abc/` itself sanitises to
`abc.pdf`, whatever the case table. -/
theorem urlToFilename_lastSegment_trailing_slash :
    lastSegment "abc/".toList = [] ∧
    (∀ ul : Char → Char, urlToFilename ul "abc/".toList = "abc.pdf".toList ∧
      urlToFilename ul [] = ".pdf".toList) ∧
    ¬ ∃ ul : Char → Char,
      urlToFilename ul "abc/".toList = urlToFilename ul (lastSegment "abc/".toList) := by
  have h : ∀ ul : Char → Char, urlToFilename ul "abc/".toList = "abc.pdf".toList ∧
      urlToFilename ul [] = ".pdf".toList := by
    intro ul
    rw [urlToFilename_ascii ul "abc/".toList (by decide), urlToFilename_ascii ul [] (by decide)]
    exact ⟨by decide, by decide⟩
  refine ⟨by decide, h, ?_⟩
  rintro ⟨ul, hu⟩
  have e : lastSegment "abc/".toList = [] := by decide
  rw [e, (h ul).1, (h ul).2] at hu
  exact absurd hu (by decide)

theorem removePdf_eq (t : GoString) :
    removeSubstring t "_pdf".toList = removeLoop "_pdf".toList t.length t :=
  removeSubstring_pdf t

theorem removePdf_occ (y : GoString) :
    removeSubstring ("_pdf".toList ++ y) "_pdf".toList = removeSubstring y "_pdf".toList := by
  rw [removePdf_eq, removePdf_eq]
  have e : "_pdf".toList ++ y = '_' :: ('p' :: 'd' :: 'f' :: y) := rfl
  have hl : ('_' :: ('p' :: 'd' :: 'f' :: y)).length = (y.length + 3) + 1 := by simp
  have hp : ("_pdf".toList).isPrefixOf ('_' :: ('p' :: 'd' :: 'f' :: y)) = true :=
    List.isPrefixOf_iff_prefix.2 ⟨y, rfl⟩
  have hd : ('_' :: ('p' :: 'd' :: 'f' :: y)).drop ("_pdf".toList).length = y := rfl
  rw [e, hl, removeLoop, if_pos hp, hd]
  exact removeLoop_fuel _ (by decide) y _ (by omega)

theorem removePdf_keep (c : Char) (rest : GoString)
    (h : ¬ "_pdf".toList <+: (c :: rest)) :
    removeSubstring (c :: rest) "_pdf".toList = c :: removeSubstring rest "_pdf".toList := by
  rw [removePdf_eq, removePdf_eq]
  have hl : (c :: rest).length = rest.length + 1 := rfl
  have hp : ¬ ("_pdf".toList).isPrefixOf (c :: rest) = true :=
    fun hp => h (List.isPrefixOf_iff_prefix.1 hp)
  rw [hl, removeLoop, if_neg hp]

theorem noiseRun_succ (k : Nat) : noiseRun (k + 1) = "_pdf".toList ++ noiseRun k := by
  simp [noiseRun, List.replicate_succ]

theorem removePdf_noiseRun (k : Nat) (z : GoString) :
    removeSubstring (noiseRun k ++ z) "_pdf".toList = removeSubstring z "_pdf".toList := by
  induction k with
  | zero => simp [noiseRun]
  | succ k ih => rw [noiseRun_succ, List.append_assoc, removePdf_occ, ih]

theorem removePdf_trace (x : Char) (w : GoString) (n : Nat) :
    ∀ t : GoString, t.length ≤ n → (x :: w) <+: removeSubstring t "_pdf".toList →
      ∃ k t1, t = noiseRun k ++ x :: t1 ∧ w <+: removeSubstring t1 "_pdf".toList := by
  induction n with
  | zero =>
    intro t ht hp
    have : t = [] := List.length_eq_zero.1 (Nat.le_zero.1 ht)
    subst this
    exact absurd (List.prefix_nil.1 hp) (by simp)
  | succ n ih =>
    intro t ht hp
    cases t with
    | nil => exact absurd (List.prefix_nil.1 hp) (by simp)
    | cons c rest =>
      by_cases hocc : "_pdf".toList <+: (c :: rest)
      · obtain ⟨y, hy⟩ := hocc
        rw [← hy, removePdf_occ] at hp
        have hlen : y.length ≤ n := by
          have := congrArg List.length hy
          simp at this ht
          omega
        obtain ⟨k, t1, e, hw⟩ := ih y hlen hp
        exact ⟨k + 1, t1, by rw [← hy, e, noiseRun_succ, List.append_assoc], hw⟩
      · rw [removePdf_keep c rest hocc, List.cons_prefix_cons] at hp
        exact ⟨0, rest, by rw [hp.1]; simp [noiseRun], hp.2⟩

theorem removePdf_spliced_of_kept (n : Nat) :
    ∀ s : GoString, s.length ≤ n → NoDouble s →
      "_pdf".toList <:+: removeSubstring s "_pdf".toList →
      ∃ i j, 0 < i + j ∧ splicedPdf i j <:+: s := by
  induction n with
  | zero =>
    intro s hs _ h
    have : s = [] := List.length_eq_zero.1 (Nat.le_zero.1 hs)
    subst this
    exact absurd h (by decide)
  | succ n ih =>
    intro s hs hd h
    cases s with
    | nil => exact absurd h (by decide)
    | cons c rest =>
      have hrest : rest.length ≤ n := by simpa using hs
      by_cases hocc : "_pdf".toList <+: (c :: rest)
      · obtain ⟨y, hy⟩ := hocc
        have hsuf : y <:+ (c :: rest) := ⟨"_pdf".toList, hy⟩
        rw [← hy, removePdf_occ] at h
        have hlen : y.length ≤ n := by
          have := congrArg List.length hy
          simp at this hs
          omega
        obtain ⟨i, j, hij, hin⟩ := ih y hlen (List.Chain'.suffix hd hsuf) h
        exact ⟨i, j, hij, hin.trans hsuf.isInfix⟩
      · rw [removePdf_keep c rest hocc] at h
        rcases List.infix_cons_iff.1 h with hpre | hin
        · have hpre2 : ('_' :: "pdf".toList) <+:
              (c :: removeSubstring rest "_pdf".toList) := hpre
          rw [List.cons_prefix_cons] at hpre2
          obtain ⟨hc, hp⟩ := hpre2
          obtain ⟨i0, t1, e1, hp1⟩ := removePdf_trace 'p' "df".toList _ rest (Nat.le_refl _) hp
          obtain ⟨i, t2, e2, hp2⟩ := removePdf_trace 'd' "f".toList _ t1 (Nat.le_refl _) hp1
          obtain ⟨j, t3, e3, _⟩ := removePdf_trace 'f' [] _ t2 (Nat.le_refl _) hp2
          have hi0 : i0 = 0 := by
            cases i0 with
            | zero => rfl
            | succ k =>
              exfalso
              have hh : rest.head? = some '_' := by
                rw [e1, noiseRun_succ]
                rfl
              exact (List.chain'_cons'.1 hd).1 '_' hh ⟨hc.symm, rfl⟩
          subst hi0
          have es : c :: rest = splicedPdf i j ++ t3 := by
            rw [e1, e2, e3, ← hc]
            simp [splicedPdf, noiseRun]
          refine ⟨i, j, ?_, ⟨[], t3, by rw [es]; simp⟩⟩
          by_contra h0
          have hz : i = 0 ∧ j = 0 := by omega
          apply hocc
          rw [es, hz.1, hz.2]
          exact ⟨t3, by simp [splicedPdf, noiseRun]⟩
        · obtain ⟨i, j, hij, hin2⟩ := ih rest hrest (List.Chain'.tail hd) hin
          exact ⟨i, j, hij, hin2.trans (List.suffix_cons c rest).isInfix⟩

theorem removePdf_append (n : Nat) :
    ∀ a t : GoString, a.length ≤ n → (t = [] ∨ t.head? = some '_') →
      removeSubstring t "_pdf".toList <:+ removeSubstring (a ++ t) "_pdf".toList := by
  induction n with
  | zero =>
    intro a t ha _
    have : a = [] := List.length_eq_zero.1 (Nat.le_zero.1 ha)
    subst this
    exact List.suffix_refl _
  | succ n ih =>
    intro a t ha ht
    cases a with
    | nil => exact List.suffix_refl _
    | cons c a1 =>
      have ha1 : a1.length ≤ n := by simpa using ha
      by_cases hocc : "_pdf".toList <+: (c :: a1 ++ t)
      · have hlong : ∃ a4, c :: a1 = "_pdf".toList ++ a4 := by
          have hocc2 : ('_' :: 'p' :: 'd' :: ['f']) <+: (c :: a1 ++ t) := hocc
          rcases ht with rfl | ht
          · rw [List.append_nil] at hocc2
            obtain ⟨r, hr⟩ := hocc2
            exact ⟨r, hr.symm⟩
          · obtain ⟨t0, rfl⟩ : ∃ t0, t = '_' :: t0 := by
              cases t with
              | nil => cases ht
              | cons d t0 =>
                have : d = '_' := by simpa using ht
                exact ⟨t0, by rw [this]⟩
            rcases a1 with _ | ⟨c2, _ | ⟨c3, _ | ⟨c4, a4⟩⟩⟩
            · simp [List.cons_prefix_cons] at hocc2
            · simp [List.cons_prefix_cons] at hocc2
            · simp [List.cons_prefix_cons] at hocc2
            · simp only [List.cons_append, List.cons_prefix_cons] at hocc2
              obtain ⟨h1, h2, h3, h4, _⟩ := hocc2
              exact ⟨a4, by rw [← h1, ← h2, ← h3, ← h4]; rfl⟩
        obtain ⟨a4, e⟩ := hlong
        have hlen : a4.length ≤ n := by
          have := congrArg List.length e
          simp at this ha
          omega
        rw [e, List.append_assoc, removePdf_occ]
        exact ih a4 t hlen ht
      · rw [List.cons_append, removePdf_keep c (a1 ++ t) hocc]
        exact (ih a1 t ha1 ht).trans (List.suffix_cons c _)

theorem removePdf_spliced (i j : Nat) (hij : 0 < i + j) (b : GoString) :
    removeSubstring (splicedPdf i j ++ b) "_pdf".toList
      = "_pdf".toList ++ removeSubstring b "_pdf".toList := by
  have e : splicedPdf i j ++ b
      = '_' :: ('p' :: (noiseRun i ++ ('d' :: (noiseRun j ++ ('f' :: b))))) := by
    simp [splicedPdf]
  have h1 : ¬ "_pdf".toList <+:
      ('_' :: ('p' :: (noiseRun i ++ ('d' :: (noiseRun j ++ ('f' :: b)))))) := by
    intro hp
    have hp2 : ('_' :: 'p' :: 'd' :: ['f']) <+:
      ('_' :: ('p' :: (noiseRun i ++ ('d' :: (noiseRun j ++ ('f' :: b)))))) := hp
    cases i with
    | succ k =>
      rw [noiseRun_succ] at hp2
      simp [List.cons_prefix_cons] at hp2
    | zero =>
      cases j with
      | zero => omega
      | succ k =>
        rw [noiseRun_succ] at hp2
        simp [noiseRun, List.cons_prefix_cons] at hp2
  have hne : ∀ (c : Char) (r : GoString), c ≠ '_' → ¬ "_pdf".toList <+: (c :: r) := by
    intro c r hc hp
    have hp2 : ('_' :: 'p' :: 'd' :: ['f']) <+: (c :: r) := hp
    rw [List.cons_prefix_cons] at hp2
    exact hc hp2.1.symm
  rw [e, removePdf_keep _ _ h1, removePdf_keep _ _ (hne 'p' _ (by decide)),
    removePdf_noiseRun, removePdf_keep _ _ (hne 'd' _ (by decide)), removePdf_noiseRun,
    removePdf_keep _ _ (hne 'f' _ (by decide))]
  rfl

theorem removePdf_kept_of_spliced (s : GoString) (i j : Nat) (hij : 0 < i + j)
    (h : splicedPdf i j <:+: s) : "_pdf".toList <:+: removeSubstring s "_pdf".toList := by
  obtain ⟨a, b, e⟩ := h
  have hsuf := removePdf_append a.length a (splicedPdf i j ++ b) (Nat.le_refl _)
    (Or.inr (by simp [splicedPdf]))
  rw [removePdf_spliced i j hij b] at hsuf
  rw [← e, List.append_assoc]
  exact (List.prefix_append _ _).isInfix.trans hsuf.isInfix

/-- C10 (as amended): the removal of `_pdf` is one left-to-right pass; the part of
`urlToFilename u` before its final `.pdf` contains `_pdf` exactly when the
sanitised name (before the removal) contains `_p`, any number of `_pdf`, `d`,
any number of `_pdf`, `f`, with at least one `_pdf` in between; for every
other URL the part before the extension contains no `_pdf`. -/
theorem urlToFilename_stem_pdf_iff (ul : Char → Char) (u stem : GoString)
    (h : urlToFilename ul u = stem ++ ".pdf".toList) :
    "_pdf".toList <:+: stem ↔
      ∃ i j, 0 < i + j ∧ splicedPdf i j <:+: sanitizedName ul u := by
  rw [urlToFilename_eq] at h
  have hs : stem = removeSubstring (sanitizedName ul u) "_pdf".toList :=
    (List.append_cancel_right h).symm
  rw [hs]
  constructor
  · exact removePdf_spliced_of_kept _ _ (Nat.le_refl _) (sanitizedName_noDouble ul u)
  · rintro ⟨i, j, hij, hin⟩
    exact removePdf_kept_of_spliced _ i j hij hin

/-- The amended C10 at `sds-p.pdf` (sanitised name `sds_p_pdf`, no `_pdf` left) and at
`a_p_pdfdf` (one `_pdf` between `_p` and `df`, so `_pdf` is left). -/
theorem urlToFilename_stem_pdf_iff_witness :
    (urlToFilename id "sds-p.pdf".toList = "sds_p".toList ++ ".pdf".toList ∧
      ¬ "_pdf".toList <:+: "sds_p".toList ∧
      ¬ ∃ i j, 0 < i + j ∧ splicedPdf i j <:+: sanitizedName id "sds-p.pdf".toList) ∧
    (∃ i j, 0 < i + j ∧ splicedPdf i j <:+: sanitizedName id "a_p_pdfdf".toList) :=
  ⟨⟨by decide, by decide,
      fun hx => absurd ((urlToFilename_stem_pdf_iff id "sds-p.pdf".toList "sds_p".toList
        (by decide)).2 hx) (by decide)⟩,
    (urlToFilename_stem_pdf_iff id "a_p_pdfdf".toList "a_pdf".toList (by decide)).1
      (by decide)⟩

/-- C10 as stated fails: in `a_p_pdfdf` the pass deletes the one occurrence of `_pdf`
and thereby joins `a_p` and `df` into `a_pdf`, so the name before the extension
still contains `_pdf`, whatever the case table. -/
theorem urlToFilename_stem_keeps_pdf :
    (∀ ul : Char → Char,
      urlToFilename ul "a_p_pdfdf".toList = "a_pdf".toList ++ ".pdf".toList) ∧
    "_pdf".toList <:+: "a_pdf".toList := by
  refine ⟨fun ul => ?_, by decide⟩
  rw [urlToFilename_ascii ul _ (by decide)]
  decide

/-! ## De-duplication -/

theorem seenAgrees_insert {check : GoString → Bool} {out : List GoString}
    (h : SeenAgrees check out) (c : GoString) :
    SeenAgrees (fun k => if k = c then true else check k) (out ++ [c]) := by
  intro x
  by_cases hx : x = c
  · simp [hx]
  · simp [hx, h x]

theorem dedupLoop_enum (R : List GoString) (P : List GoString) (check : GoString → Bool)
    (out : List GoString) (hc : SeenAgrees check P) :
    dedupLoop R check out = out ++
      ((R.enumFrom P.length).filter (fun p => !((P ++ R).take p.1).contains p.2)).map
        Prod.snd := by
  induction R generalizing P check out with
  | nil => simp [dedupLoop]
  | cons c rest ih =>
    have htake : (P ++ c :: rest).take P.length = P := by simp
    have happ : P ++ c :: rest = (P ++ [c]) ++ rest := by simp
    have hlen : (P ++ [c]).length = P.length + 1 := by simp
    unfold dedupLoop
    rw [List.enumFrom_cons, List.filter_cons]
    simp only [htake]
    by_cases hm : check c = true
    · have hP : c ∈ P := (hc c).1 hm
      have hagree : SeenAgrees check (P ++ [c]) := by
        intro x
        rw [hc x]
        simp only [List.mem_append, List.mem_singleton]
        constructor
        · exact Or.inl
        · rintro (h | h)
          · exact h
          · rw [h]; exact hP
      have := ih (P ++ [c]) check out hagree
      rw [hlen, ← happ] at this
      have hPc : P.contains c = true := by simpa using hP
      simp only [hm, hPc, Bool.not_true, Bool.false_eq_true, if_false]
      exact this
    · have hP : c ∉ P := fun h => hm ((hc c).2 h)
      have := ih (P ++ [c]) _ (out ++ [c]) (seenAgrees_insert hc c)
      rw [hlen, ← happ] at this
      have hPc : P.contains c = false := by simpa using hP
      simp only [hm, hPc, Bool.not_false, if_true]
      rw [this]
      simp

theorem dedupLoop_mem (R : List GoString) (check : GoString → Bool) (out : List GoString)
    (hc : SeenAgrees check out) (x : GoString) :
    x ∈ dedupLoop R check out ↔ x ∈ out ∨ x ∈ R := by
  induction R generalizing check out with
  | nil => simp [dedupLoop]
  | cons c rest ih =>
    unfold dedupLoop
    by_cases hm : check c = true
    · have hcout : c ∈ out := (hc c).1 hm
      simp only [hm, Bool.not_true, Bool.false_eq_true, if_false]
      rw [ih check out hc, List.mem_cons]
      constructor
      · rintro (h | h)
        · exact Or.inl h
        · exact Or.inr (Or.inr h)
      · rintro (h | h | h)
        · exact Or.inl h
        · exact Or.inl (h ▸ hcout)
        · exact Or.inr h
    · simp only [hm, Bool.not_false, if_true]
      rw [ih _ _ (seenAgrees_insert hc c), List.mem_append, List.mem_singleton, List.mem_cons]
      tauto

theorem dedupLoop_nodup (R : List GoString) (check : GoString → Bool) (out : List GoString)
    (hc : SeenAgrees check out) (hn : out.Nodup) : (dedupLoop R check out).Nodup := by
  induction R generalizing check out with
  | nil => simpa [dedupLoop] using hn
  | cons c rest ih =>
    unfold dedupLoop
    by_cases hm : check c = true
    · simp only [hm, Bool.not_true, Bool.false_eq_true, if_false]
      exact ih check out hc hn
    · simp only [hm, Bool.not_false, if_true]
      refine ih _ _ (seenAgrees_insert hc c) ?_
      have hcout : c ∉ out := fun h => hm ((hc c).2 h)
      rw [List.nodup_append]
      exact ⟨hn, List.nodup_singleton c, by
        intro a ha hb
        rw [List.mem_singleton] at hb
        exact hcout (hb ▸ ha)⟩

theorem dedupLoop_of_nodup (R : List GoString) (check : GoString → Bool)
    (out : List GoString) (hc : SeenAgrees check out) (hn : (out ++ R).Nodup) :
    dedupLoop R check out = out ++ R := by
  induction R generalizing check out with
  | nil => simp [dedupLoop]
  | cons c rest ih =>
    have hcout : c ∉ out := by
      intro h
      have := (List.nodup_append.1 hn).2.2
      exact this h (List.mem_cons_self c rest)
    have hm : ¬ check c = true := fun h => hcout ((hc c).1 h)
    unfold dedupLoop
    simp only [hm, Bool.not_false, if_true]
    have hn2 : ((out ++ [c]) ++ rest).Nodup := by simpa using hn
    rw [ih _ _ (seenAgrees_insert hc c) hn2]
    simp

theorem seenAgrees_empty : SeenAgrees (fun _ => false) [] := by
  intro x
  simp

/-- C2: `removeDuplicatesFromSlice L` is `L` without the elements that equal an earlier
element: the element at index `i` is kept exactly when it does not occur before
index `i`, the kept elements keep their order; hence the result has no two
identical elements and the same elements as `L`. -/
theorem removeDuplicatesFromSlice_spec (L : List GoString) :
    removeDuplicatesFromSlice L = keepFirstOccurrences L ∧
    List.Sublist (removeDuplicatesFromSlice L) L ∧
    (removeDuplicatesFromSlice L).Nodup ∧
    (∀ x, x ∈ removeDuplicatesFromSlice L ↔ x ∈ L) := by
  have h1 : removeDuplicatesFromSlice L = keepFirstOccurrences L := by
    unfold removeDuplicatesFromSlice keepFirstOccurrences
    rw [dedupLoop_enum L [] _ [] seenAgrees_empty]
    simp [List.enum]
  refine ⟨h1, ?_, ?_, ?_⟩
  · rw [h1]
    unfold keepFirstOccurrences
    have hs : List.Sublist (L.enum.filter (fun p => !(L.take p.1).contains p.2)) L.enum :=
      List.filter_sublist _
    have := hs.map Prod.snd
    rwa [List.enum_map_snd] at this
  · exact dedupLoop_nodup L _ [] seenAgrees_empty List.nodup_nil
  · intro x
    unfold removeDuplicatesFromSlice
    rw [dedupLoop_mem L _ [] seenAgrees_empty x]
    simp

/-- C6: `removeDuplicatesFromSlice` is idempotent. -/
theorem removeDuplicatesFromSlice_idempotent (L : List GoString) :
    removeDuplicatesFromSlice (removeDuplicatesFromSlice L) = removeDuplicatesFromSlice L := by
  have hn : (removeDuplicatesFromSlice L).Nodup :=
    dedupLoop_nodup L _ [] seenAgrees_empty List.nodup_nil
  have := dedupLoop_of_nodup (removeDuplicatesFromSlice L) _ [] seenAgrees_empty
    (by simpa using hn)
  simpa [removeDuplicatesFromSlice] using this

/-! ## Link extraction -/

theorem matchLiteral_some {s m : GoString} (h : matchLiteral s = some m) :
    m = ".pdf".toList ∧ m <+: s := by
  unfold matchLiteral at h
  split at h
  · rename_i hp
    have hm : m = ".pdf".toList := by
      injection h with h
      exact h.symm
    exact ⟨hm, hm ▸ List.isPrefixOf_iff_prefix.1 hp⟩
  · cases h

theorem matchRest_some (s : GoString) : ∀ m, matchRest s = some m →
    m <+: s ∧ ".pdf".toList <:+ m ∧ ∀ c ∈ m, isLinkChar c = true := by
  induction s with
  | nil => intro m h; cases h
  | cons c rest ih =>
    intro m h
    have hlit : ∀ m, matchLiteral (c :: rest) = some m →
        m <+: (c :: rest) ∧ ".pdf".toList <:+ m ∧ ∀ c ∈ m, isLinkChar c = true := by
      intro m hm
      obtain ⟨e, hp⟩ := matchLiteral_some hm
      refine ⟨hp, e ▸ List.suffix_refl _, ?_⟩
      rw [e]
      decide
    unfold matchRest at h
    split at h
    · rename_i hc
      split at h
      · rename_i m1 hm1
        obtain ⟨h1, h2, h3⟩ := ih m1 hm1
        injection h with h
        subst h
        refine ⟨(List.cons_prefix_cons).2 ⟨rfl, h1⟩, h2.trans (List.suffix_cons c m1), ?_⟩
        intro d hd
        rcases List.mem_cons.1 hd with hd | hd
        · rw [hd]; exact hc
        · exact h3 d hd
      · exact hlit m h
    · exact hlit m h

theorem matchHere_some (s m : GoString) (h : matchHere s = some m) :
    m <+: s ∧ ".pdf".toList <:+ m ∧ ∀ c ∈ m, isLinkChar c = true := by
  cases s with
  | nil => simp [matchHere] at h
  | cons c rest =>
    simp only [matchHere] at h
    split at h
    · rename_i hc
      split at h
      · rename_i m1 hm1
        obtain ⟨h1, h2, h3⟩ := matchRest_some rest m1 hm1
        injection h with h
        subst h
        refine ⟨(List.cons_prefix_cons).2 ⟨rfl, h1⟩, h2.trans (List.suffix_cons c m1), ?_⟩
        intro d hd
        rcases List.mem_cons.1 hd with hd | hd
        · rw [hd]; exact hc
        · exact h3 d hd
      · cases h
    · cases h

theorem findAllLoop_mem (n : Nat) (s m : GoString) (h : m ∈ findAllLoop n s) :
    m <:+: s ∧ ".pdf".toList <:+ m ∧ ∀ c ∈ m, isLinkChar c = true := by
  induction n generalizing s with
  | zero => unfold findAllLoop at h; cases h
  | succ n ih =>
    cases s with
    | nil => unfold findAllLoop at h; cases h
    | cons c rest =>
      unfold findAllLoop at h
      split at h
      · rename_i m1 hm1
        rcases List.mem_cons.1 h with h | h
        · obtain ⟨h1, h2, h3⟩ := matchHere_some _ _ hm1
          rw [h]
          exact ⟨h1.isInfix, h2, h3⟩
        · obtain ⟨h1, h2, h3⟩ := ih _ h
          exact ⟨h1.trans (List.drop_suffix _ _).isInfix, h2, h3⟩
      · obtain ⟨h1, h2, h3⟩ := ih _ h
        exact ⟨h1.trans (List.suffix_cons c rest).isInfix, h2, h3⟩

theorem matchHere_length (s m : GoString) (h : matchHere s = some m) : 1 ≤ m.length := by
  have h2 := (matchHere_some s m h).2.1.length_le
  have : (".pdf".toList).length = 4 := rfl
  omega

theorem findAllLoop_fuel_succ (n : Nat) (s : GoString) (h : s.length ≤ n) :
    findAllLoop (n + 1) s = findAllLoop n s := by
  induction n generalizing s with
  | zero =>
    have hs : s = [] := List.length_eq_zero.1 (Nat.le_zero.1 h)
    subst hs
    rfl
  | succ n ih =>
    cases s with
    | nil => rfl
    | cons c rest =>
      have hlen : rest.length ≤ n := by simpa using h
      rw [findAllLoop, findAllLoop]
      split
      · rename_i m hm
        have hm1 := matchHere_length _ _ hm
        rw [ih]
        rw [List.length_drop]
        have : (c :: rest).length = rest.length + 1 := rfl
        omega
      · exact ih rest hlen

/-- The step bound of `extractPDFUrls` is never reached: any larger bound gives the
same matches. -/
theorem findAllLoop_fuel (s : GoString) (n : Nat) (h : s.length ≤ n) :
    findAllLoop n s = extractPDFUrls s := by
  unfold extractPDFUrls
  induction n with
  | zero =>
    have hs : s = [] := List.length_eq_zero.1 (Nat.le_zero.1 h)
    subst hs
    rfl
  | succ n ih =>
    by_cases hn : s.length ≤ n
    · rw [findAllLoop_fuel_succ n s hn, ih hn]
    · have : s.length = n + 1 := by omega
      rw [this]

theorem isLinkChar_true {c : Char} (h : isLinkChar c = true) :
    c ≠ ' ' ∧ c ≠ '\t' ∧ c ≠ '\n' ∧ c ≠ '\r' ∧ c ≠ Char.ofNat 12 ∧
      c ≠ Char.ofNat 34 ∧ c ≠ Char.ofNat 39 := by
  unfold isLinkChar isRegexSpace dquote squote at h
  simp only [Bool.not_eq_true', Bool.or_eq_false_iff, beq_eq_false_iff_ne] at h
  obtain ⟨⟨⟨⟨⟨⟨h1, h2⟩, h3⟩, h4⟩, h5⟩, h6⟩, h7⟩ := h
  exact ⟨h5, h1, h2, h4, h3, h6, h7⟩

/-- C3 (as amended): every string returned by `extractPDFUrls t` is a contiguous
substring of `t`, ends with the lowercase suffix `.pdf`, and contains none of
the five runes of the class `\s` of the expression (space, tab, line feed,
carriage return, form feed) and no double or single quote. -/
theorem extractPDFUrls_sound (t m : GoString) (h : m ∈ extractPDFUrls t) :
    m <:+: t ∧ ".pdf".toList <:+ m ∧
    ∀ c ∈ m, c ≠ ' ' ∧ c ≠ '\t' ∧ c ≠ '\n' ∧ c ≠ '\r' ∧ c ≠ Char.ofNat 12 ∧
      c ≠ Char.ofNat 34 ∧ c ≠ Char.ofNat 39 := by
  obtain ⟨h1, h2, h3⟩ := findAllLoop_mem _ _ _ h
  exact ⟨h1, h2, fun c hc => isLinkChar_true (h3 c hc)⟩

/-- C3 at the text `see a.pdf now`. -/
theorem extractPDFUrls_sound_witness :
    "a.pdf".toList ∈ extractPDFUrls "see a.pdf now".toList ∧
    "a.pdf".toList <:+: "see a.pdf now".toList ∧ ".pdf".toList <:+ "a.pdf".toList :=
  ⟨by decide,
    (extractPDFUrls_sound "see a.pdf now".toList "a.pdf".toList (by decide)).1,
    (extractPDFUrls_sound "see a.pdf now".toList "a.pdf".toList (by decide)).2.1⟩

/-- C3 as stated fails: white space outside the class `\s` stays inside a match.  The
texts `a`, U+000B, `b.pdf` and `x`, U+00A0, `y.pdf` are each returned whole, and
vertical tab and no-break space are white space. -/
theorem extractPDFUrls_keeps_white_space :
    extractPDFUrls ('a' :: Char.ofNat 11 :: "b.pdf".toList)
      = ['a' :: Char.ofNat 11 :: "b.pdf".toList] ∧
    isWhiteSpace (Char.ofNat 11) = true ∧
    extractPDFUrls ('x' :: Char.ofNat 160 :: "y.pdf".toList)
      = ['x' :: Char.ofNat 160 :: "y.pdf".toList] ∧
    isWhiteSpace (Char.ofNat 160) = true ∧
    ¬ ∀ t m : GoString, m ∈ extractPDFUrls t → ∀ c ∈ m, isWhiteSpace c = false := by
  refine ⟨by decide, by decide, by decide, by decide, fun h => ?_⟩
  have := h ('a' :: Char.ofNat 11 :: "b.pdf".toList) ('a' :: Char.ofNat 11 :: "b.pdf".toList)
    (by decide) (Char.ofNat 11) (by decide)
  exact absurd this (by decide)

theorem matchRest_stop (r : GoString) (hr : StopsHere r) : matchRest r = none := by
  rcases hr with rfl | ⟨d, r1, rfl, hd⟩
  · rfl
  · have hne : d ≠ '.' := by
      rintro rfl
      exact absurd hd (by decide)
    simp [matchRest, hd, matchLiteral, hne, Ne.symm hne]

theorem matchRest_literal (r : GoString) (hr : StopsHere r) :
    matchRest (".pdf".toList ++ r) = some ".pdf".toList := by
  have h0 := matchRest_stop r hr
  have e : ".pdf".toList ++ r = '.' :: 'p' :: 'd' :: 'f' :: r := rfl
  have hf : matchRest ('f' :: r) = none := by
    simp [matchRest, h0, matchLiteral, show isLinkChar 'f' = true by decide]
  have hd : matchRest ('d' :: 'f' :: r) = none := by
    simp [matchRest, h0, matchLiteral, show isLinkChar 'f' = true by decide,
      show isLinkChar 'd' = true by decide]
  have hp : matchRest ('p' :: 'd' :: 'f' :: r) = none := by
    simp [matchRest, h0, matchLiteral, show isLinkChar 'f' = true by decide,
      show isLinkChar 'd' = true by decide, show isLinkChar 'p' = true by decide]
  rw [e]
  rw [matchRest, if_pos (by decide), hp]
  simp [matchLiteral]

theorem matchRest_run (y r : GoString) (hy : ∀ c ∈ y, isLinkChar c = true)
    (hr : StopsHere r) :
    matchRest (y ++ (".pdf".toList ++ r)) = some (y ++ ".pdf".toList) := by
  induction y with
  | nil => simpa using matchRest_literal r hr
  | cons c y ih =>
    have hc : isLinkChar c = true := hy c (List.mem_cons_self c y)
    have := ih (fun d hd => hy d (List.mem_cons_of_mem c hd))
    rw [List.cons_append, matchRest, if_pos hc, this]
    rfl

theorem matchHere_link (l r : GoString) (hl : IsLink l) (hr : StopsHere r) :
    matchHere (l ++ r) = some l := by
  obtain ⟨x, hx, hall, rfl⟩ := hl
  cases x with
  | nil => exact absurd rfl hx
  | cons c y =>
    have hc : isLinkChar c = true := hall c (List.mem_cons_self c y)
    have := matchRest_run y r (fun d hd => hall d (List.mem_cons_of_mem c hd)) hr
    rw [List.append_assoc, List.cons_append, matchHere, if_pos hc, this]
    rfl

theorem findAllLoop_link (n : Nat) (l r : GoString) (hl : IsLink l) (hr : StopsHere r) :
    findAllLoop (n + 1) (l ++ r) = l :: findAllLoop n r := by
  have hm := matchHere_link l r hl hr
  obtain ⟨x, hx, _, e⟩ := hl
  cases hlr : l ++ r with
  | nil =>
    rw [e] at hlr
    simp at hlr
  | cons c rest =>
    rw [hlr] at hm
    rw [findAllLoop, hm, ← hlr]
    simp

theorem findAllLoop_sep (n : Nat) (sep : Char) (t : GoString) (hs : isLinkChar sep = false) :
    findAllLoop (n + 1) (sep :: t) = findAllLoop n t := by
  rw [findAllLoop]
  simp [matchHere, hs]

theorem findAllLoop_intercalate (sep : Char) (hs : isLinkChar sep = false)
    (ls : List GoString) (hl : ∀ l ∈ ls, IsLink l) :
    ∀ n, ([sep].intercalate ls).length ≤ n → findAllLoop n ([sep].intercalate ls) = ls := by
  induction ls with
  | nil =>
    intro n _
    cases n <;> rfl
  | cons l rest ih =>
    intro n hn
    have hlink : IsLink l := hl l (List.mem_cons_self l rest)
    have hlen : 1 ≤ l.length := by
      obtain ⟨x, _, _, e⟩ := hlink
      rw [e]
      simp
    cases rest with
    | nil =>
      have e : [sep].intercalate [l] = l ++ [] := by simp [List.intercalate]
      rw [e] at hn ⊢
      obtain ⟨k, rfl⟩ : ∃ k, n = k + 1 := ⟨n - 1, by simp at hn; omega⟩
      rw [findAllLoop_link k l [] hlink (Or.inl rfl)]
      cases k <;> rfl
    | cons l2 rest2 =>
      have e : [sep].intercalate (l :: l2 :: rest2)
          = l ++ (sep :: [sep].intercalate (l2 :: rest2)) := by
        simp [List.intercalate]
      rw [e] at hn ⊢
      have hn2 : l.length + (([sep].intercalate (l2 :: rest2)).length + 1) ≤ n := by
        simpa using hn
      obtain ⟨k, rfl⟩ : ∃ k, n = k + 2 := ⟨n - 2, by omega⟩
      rw [findAllLoop_link (k + 1) l _ hlink (Or.inr ⟨sep, _, rfl, hs⟩),
        findAllLoop_sep k sep _ hs,
        ih (fun x hx => hl x (List.mem_cons_of_mem l hx)) k (by omega)]

/-- C7: `extractPDFUrls` returns its matches in order of appearance with repeats kept:
on links (non-empty runs without whitespace or quote, followed by `.pdf`) joined
by a single space or quote it returns exactly the links; on the scenario text
it returns `doc_1.pdf` twice, and de-duplication leaves one. -/
theorem extractPDFUrls_joined (ls : List GoString) (sep : Char)
    (hsep : sep = ' ' ∨ sep = Char.ofNat 34 ∨ sep = Char.ofNat 39)
    (hl : ∀ l ∈ ls, ∃ x : GoString, x ≠ [] ∧
      (∀ c ∈ x, isRegexSpace c = false ∧ c ≠ Char.ofNat 34 ∧ c ≠ Char.ofNat 39) ∧
      l = x ++ ".pdf".toList) :
    extractPDFUrls ([sep].intercalate ls) = ls ∧
    extractPDFUrls scenarioText = ["doc_1.pdf".toList, "doc_1.pdf".toList] ∧
    removeDuplicatesFromSlice (extractPDFUrls scenarioText) = ["doc_1.pdf".toList] := by
  refine ⟨?_, by decide, by decide⟩
  have hs : isLinkChar sep = false := by
    rcases hsep with rfl | rfl | rfl <;> decide
  refine findAllLoop_intercalate sep hs ls ?_ _ (Nat.le_refl _)
  intro l hlm
  obtain ⟨x, hx, hall, e⟩ := hl l hlm
  refine ⟨x, hx, fun c hc => ?_, e⟩
  obtain ⟨h1, h2, h3⟩ := hall c hc
  simp [isLinkChar, h1, dquote, squote, h2, h3]

/-- C7 at the links `a.pdf`, `b/c.pdf`, `a.pdf` joined by spaces. -/
theorem extractPDFUrls_joined_witness :
    extractPDFUrls "a.pdf b/c.pdf a.pdf".toList
      = ["a.pdf".toList, "b/c.pdf".toList, "a.pdf".toList] :=
  (extractPDFUrls_joined ["a.pdf".toList, "b/c.pdf".toList, "a.pdf".toList] ' '
    (Or.inl rfl) (by
      intro l hlm
      simp only [List.mem_cons, List.mem_singleton, List.not_mem_nil, or_false] at hlm
      rcases hlm with rfl | rfl | rfl
      · exact ⟨"a".toList, by decide, by decide, by decide⟩
      · exact ⟨"b/c".toList, by decide, by decide, by decide⟩
      · exact ⟨"a".toList, by decide, by decide, by decide⟩)).1

/-! ## The downloader -/

theorem stringsContains_iff (s substr : GoString) :
    stringsContains s substr = true ↔ substr <:+: s := by
  unfold stringsContains
  rw [List.any_eq_true, List.infix_iff_prefix_suffix]
  constructor
  · rintro ⟨t, ht, hp⟩
    exact ⟨t, List.isPrefixOf_iff_prefix.1 hp, (List.mem_tails _ _).1 ht⟩
  · rintro ⟨t, hp, ht⟩
    exact ⟨t, (List.mem_tails _ _).2 ht, List.isPrefixOf_iff_prefix.2 hp⟩

theorem toLowerRune_safe (ul : Char → Char) {c : Char} (h : SafeChar c ∨ c = '.') :
    toLowerRune ul c = c := by
  have hlt : c.toNat < 128 ∧ ¬ ('A' ≤ c ∧ c ≤ 'Z') := by
    rcases h with (h | h | h) | h
    · have h1 : 97 ≤ c.toNat := h.1
      have h2 : c.toNat ≤ 122 := h.2
      refine ⟨by omega, fun hu => ?_⟩
      have h3 : c.toNat ≤ 90 := hu.2
      omega
    · have h1 : 48 ≤ c.toNat := h.1
      have h2 : c.toNat ≤ 57 := h.2
      refine ⟨by omega, fun hu => ?_⟩
      have h3 : 65 ≤ c.toNat := hu.1
      omega
    · rw [h]; decide
    · rw [h]; decide
  unfold toLowerRune
  rw [if_pos hlt.1, if_neg hlt.2]

theorem stringsToLower_urlToFilename (ul : Char → Char) (u : GoString) :
    stringsToLower ul (urlToFilename ul u) = urlToFilename ul u := by
  unfold stringsToLower
  conv_rhs => rw [← List.map_id (urlToFilename ul u)]
  apply List.map_congr_left
  intro c hc
  rw [urlToFilename_eq, List.mem_append] at hc
  rcases hc with hc | hc
  · exact toLowerRune_safe ul (Or.inl (urlStem_safe ul u c hc))
  · have : c = '.' ∨ c = 'p' ∨ c = 'd' ∨ c = 'f' := by simpa using hc
    rcases this with h | h | h | h
    · exact toLowerRune_safe ul (Or.inr h)
    · exact toLowerRune_safe ul (Or.inl (h ▸ Or.inl (by decide)))
    · exact toLowerRune_safe ul (Or.inl (h ▸ Or.inl (by decide)))
    · exact toLowerRune_safe ul (Or.inl (h ▸ Or.inl (by decide)))

theorem downloadPDF_unfold (ul : Char → Char) (transport : Transport) (faults : Faults)
    (u d : GoString) (w : World) :
    downloadPDF ul transport faults u d w =
      if fileExists w.fs (targetPath ul u d) then (false, w)
      else
        match transport u with
        | none => (false, { fs := w.fs, requests := w.requests + 1 })
        | some resp =>
          if resp.statusCode ≠ 200 then (false, { fs := w.fs, requests := w.requests + 1 })
          else if !stringsContains resp.contentType "binary/octet-stream".toList
              && !stringsContains resp.contentType "application/pdf".toList then
            (false, { fs := w.fs, requests := w.requests + 1 })
          else if resp.readErr then (false, { fs := w.fs, requests := w.requests + 1 })
          else if resp.body.length = 0 then
            (false, { fs := w.fs, requests := w.requests + 1 })
          else
            match osCreate faults w.fs (targetPath ul u d) with
            | none => (false, { fs := w.fs, requests := w.requests + 1 })
            | some fs2 =>
              match faults.writeLimit with
              | some k =>
                if k < resp.body.length then
                  (false, { fs := writeFile fs2 (targetPath ul u d) (resp.body.take k),
                            requests := w.requests + 1 })
                else (true, { fs := writeFile fs2 (targetPath ul u d) resp.body,
                              requests := w.requests + 1 })
              | none => (true, { fs := writeFile fs2 (targetPath ul u d) resp.body,
                                 requests := w.requests + 1 }) := by
  unfold downloadPDF targetPath
  simp only [stringsToLower_urlToFilename]

/-- C4: if a regular file already exists at `join(d, urlToFilename u)`, then
`downloadPDF u d` returns false and the transport serves no request (the request
count and the filesystem are as before the call). -/
theorem downloadPDF_skips_existing (ul : Char → Char) (transport : Transport)
    (faults : Faults) (u d : GoString) (w : World) (content : List Nat)
    (h : w.fs (filepathJoin d (urlToFilename ul u)) = some (Node.file content)) :
    (downloadPDF ul transport faults u d w).1 = false ∧
    (downloadPDF ul transport faults u d w).2.requests = w.requests ∧
    (downloadPDF ul transport faults u d w).2.fs = w.fs := by
  have he : fileExists w.fs (targetPath ul u d) = true := by
    unfold fileExists targetPath
    rw [h]
    rfl
  rw [downloadPDF_unfold, if_pos he]
  exact ⟨rfl, rfl, rfl⟩

/-- C4 at `https://wetandforget.com/a.pdf` with `PDFs/a.pdf` already on disk. -/
theorem downloadPDF_skips_existing_witness :
    (downloadPDF id (stubTransport pdfResponse) noFaults
        "https://wetandforget.com/a.pdf".toList "PDFs/".toList
        { fs := writeFile emptyFS "PDFs/a.pdf".toList [1], requests := 0 }).1 = false ∧
    (downloadPDF id (stubTransport pdfResponse) noFaults
        "https://wetandforget.com/a.pdf".toList "PDFs/".toList
        { fs := writeFile emptyFS "PDFs/a.pdf".toList [1], requests := 0 }).2.requests = 0 :=
  ⟨(downloadPDF_skips_existing id (stubTransport pdfResponse) noFaults
      "https://wetandforget.com/a.pdf".toList "PDFs/".toList
      { fs := writeFile emptyFS "PDFs/a.pdf".toList [1], requests := 0 } [1] (by decide)).1,
   (downloadPDF_skips_existing id (stubTransport pdfResponse) noFaults
      "https://wetandforget.com/a.pdf".toList "PDFs/".toList
      { fs := writeFile emptyFS "PDFs/a.pdf".toList [1], requests := 0 } [1] (by decide)).2.1⟩

/-- C5: `downloadPDF` returns true only if no regular file was at the target path, the
GET came back without transport error, with status 200 and a Content-Type that
contains `binary/octet-stream` or `application/pdf`, and the body was read without
error and had at least one byte; a 200 response of type `text/html` with a
non-empty body gives false. -/
theorem downloadPDF_true_only_if (ul : Char → Char) (transport : Transport)
    (faults : Faults) (u d : GoString) (w : World) :
    ((downloadPDF ul transport faults u d w).1 = true →
      (∀ content, w.fs (filepathJoin d (urlToFilename ul u)) ≠ some (Node.file content)) ∧
      ∃ resp, transport u = some resp ∧ resp.statusCode = 200 ∧
        ("binary/octet-stream".toList <:+: resp.contentType ∨
          "application/pdf".toList <:+: resp.contentType) ∧
        resp.readErr = false ∧ 0 < resp.body.length) ∧
    (∀ resp, transport u = some resp → resp.statusCode = 200 → resp.body ≠ [] →
      resp.contentType = "text/html".toList →
      (downloadPDF ul transport faults u d w).1 = false) := by
  have main : (downloadPDF ul transport faults u d w).1 = true →
      (∀ content, w.fs (filepathJoin d (urlToFilename ul u)) ≠ some (Node.file content)) ∧
      ∃ resp, transport u = some resp ∧ resp.statusCode = 200 ∧
        ("binary/octet-stream".toList <:+: resp.contentType ∨
          "application/pdf".toList <:+: resp.contentType) ∧
        resp.readErr = false ∧ 0 < resp.body.length := by
    intro h
    rw [downloadPDF_unfold] at h
    split at h
    · cases h
    · rename_i hex
      have hno : ∀ content,
          w.fs (filepathJoin d (urlToFilename ul u)) ≠ some (Node.file content) := by
        intro content hc
        apply hex
        unfold fileExists targetPath
        rw [hc]
        rfl
      refine ⟨hno, ?_⟩
      split at h
      · cases h
      · rename_i resp hresp
        split at h
        · cases h
        · rename_i hstatus
          split at h
          · cases h
          · rename_i hct
            split at h
            · cases h
            · rename_i herr
              split at h
              · cases h
              · rename_i hlen
                refine ⟨resp, hresp, not_not.1 hstatus, ?_, by simpa using herr,
                  Nat.pos_of_ne_zero hlen⟩
                rw [← stringsContains_iff, ← stringsContains_iff]
                by_cases h1 : stringsContains resp.contentType "binary/octet-stream".toList = true
                · exact Or.inl h1
                · right
                  by_contra h2
                  apply hct
                  rw [Bool.eq_false_iff.2 h1, Bool.eq_false_iff.2 h2]
                  rfl
  refine ⟨main, ?_⟩
  intro resp hresp _ _ hct
  by_contra hne
  have ht : (downloadPDF ul transport faults u d w).1 = true := by simpa using hne
  obtain ⟨_, r, hr, _, hc, _⟩ := main ht
  rw [hresp] at hr
  injection hr with hr
  subst hr
  rw [hct] at hc
  exact absurd hc (by decide)

/-- C5 at a successful download of `https://wetandforget.com/a.pdf` into the
directory `PDFs`, and at the same URL answered with `text/html`. -/
theorem downloadPDF_true_only_if_witness :
    (downloadPDF id (stubTransport pdfResponse) noFaults
        "https://wetandforget.com/a.pdf".toList "PDFs/".toList
        { fs := pdfsDirFS, requests := 0 }).1 = true ∧
    (∃ resp, stubTransport pdfResponse "https://wetandforget.com/a.pdf".toList = some resp ∧
      resp.statusCode = 200 ∧ 0 < resp.body.length) ∧
    (downloadPDF id (stubTransport htmlResponse) noFaults
        "https://wetandforget.com/a.pdf".toList "PDFs/".toList
        { fs := pdfsDirFS, requests := 0 }).1 = false := by
  refine ⟨by decide, ?_, ?_⟩
  · obtain ⟨_, resp, h1, h2, _, _, h3⟩ :=
      (downloadPDF_true_only_if id (stubTransport pdfResponse) noFaults
        "https://wetandforget.com/a.pdf".toList "PDFs/".toList
        { fs := pdfsDirFS, requests := 0 }).1 (by decide)
    exact ⟨resp, h1, h2, h3⟩
  · exact (downloadPDF_true_only_if id (stubTransport htmlResponse) noFaults
      "https://wetandforget.com/a.pdf".toList "PDFs/".toList
      { fs := pdfsDirFS, requests := 0 }).2 htmlResponse rfl rfl (by decide) rfl

/-- C9: when `downloadPDF` fails before the final write step (the target file exists,
the transport errors, the status is not 200, the Content-Type matches neither
accepted type, the body read errors, or zero bytes are read), it returns false
and the filesystem after the call is the filesystem before it. -/
theorem downloadPDF_failure_keeps_fs (ul : Char → Char) (transport : Transport)
    (faults : Faults) (u d : GoString) (w : World)
    (h : fileExists w.fs (filepathJoin d (urlToFilename ul u)) = true ∨
      transport u = none ∨
      ∃ resp, transport u = some resp ∧
        (resp.statusCode ≠ 200 ∨
          (¬ "binary/octet-stream".toList <:+: resp.contentType ∧
            ¬ "application/pdf".toList <:+: resp.contentType) ∨
          resp.readErr = true ∨ resp.body.length = 0)) :
    (downloadPDF ul transport faults u d w).1 = false ∧
    (downloadPDF ul transport faults u d w).2.fs = w.fs := by
  rw [downloadPDF_unfold]
  split
  · exact ⟨rfl, rfl⟩
  · rename_i hex
    rcases h with h | h | ⟨resp, hresp, h⟩
    · exact absurd h hex
    · rw [h]
      exact ⟨rfl, rfl⟩
    · rw [hresp]
      dsimp only
      split
      · exact ⟨rfl, rfl⟩
      · rename_i hstatus
        split
        · exact ⟨rfl, rfl⟩
        · rename_i hct
          split
          · exact ⟨rfl, rfl⟩
          · rename_i herr
            split
            · exact ⟨rfl, rfl⟩
            · rename_i hlen
              exfalso
              rcases h with h | h | h | h
              · exact hstatus h
              · apply hct
                have h1 : stringsContains resp.contentType "binary/octet-stream".toList
                    = false := by
                  rw [← Bool.not_eq_true, stringsContains_iff]
                  exact h.1
                have h2 : stringsContains resp.contentType "application/pdf".toList
                    = false := by
                  rw [← Bool.not_eq_true, stringsContains_iff]
                  exact h.2
                rw [h1, h2]
                rfl
              · exact herr h
              · exact hlen h

/-- C9 at a GET answered with status 404, and at a transport error. -/
theorem downloadPDF_failure_keeps_fs_witness :
    (downloadPDF id (stubTransport notFoundResponse) noFaults
        "https://wetandforget.com/a.pdf".toList "PDFs/".toList
        { fs := emptyFS, requests := 0 }).2.fs = emptyFS ∧
    (downloadPDF id (fun _ => none) noFaults
        "https://wetandforget.com/a.pdf".toList "PDFs/".toList
        { fs := emptyFS, requests := 0 }).2.fs = emptyFS :=
  ⟨(downloadPDF_failure_keeps_fs id (stubTransport notFoundResponse) noFaults
      "https://wetandforget.com/a.pdf".toList "PDFs/".toList
      { fs := emptyFS, requests := 0 }
      (Or.inr (Or.inr ⟨notFoundResponse, rfl, Or.inl (by decide)⟩))).2,
   (downloadPDF_failure_keeps_fs id (fun _ => none) noFaults
      "https://wetandforget.com/a.pdf".toList "PDFs/".toList
      { fs := emptyFS, requests := 0 } (Or.inr (Or.inl rfl))).2⟩

end WetAndForget
